import Mathlib

/-!
# Verification of the movie recommendation app (`src/app.py`)

Shallow embedding of the core logic of `app.py`:

* the Matcher (`get_close_matches` from Python's `difflib`, called at
  `app.py` line 95 with `n=1, cutoff=0.3`, over case-folded titles;
  the cutoff is written `mkRat 3 10`, the exact rational `3/10`),
* the Recommender (`sklearn` `kneighbors` query at line 102, sliced
  `[1:n+1]` at line 104),
* `load_models` (lines 82-88) and the outcome branching of `main`
  (lines 155-182).

Modelling conventions:

* Python strings are `List Char`; `str.lower()` is `Char.toLower` mapped.
* Floating-point similarity ratios are modelled as exact rationals
  (`ℚ`, built with `mkRat`, whose value is the exact quotient); feature
  values are modelled as exact integers (any fixed-point scaling of the
  real feature values — the claims depend only on the ordering of
  distances and on zero versus positive distance, which scaling
  preserves).
* The feature matrix is a list of dense rational row vectors; sklearn's
  default Euclidean (minkowski p=2) metric is modelled by the squared
  Euclidean distance `sqdist`, which induces the same ordering.
* `kneighbors` is called in the source without an `n_neighbors`
  argument, so it returns the `n_neighbors` default fixed when the
  (opaque, externally trained) index artifact was built; that default is
  the `nNeighbors` field of `KnnModel`.  sklearn raises when the
  requested neighbor count exceeds the trained sample count (or is 0);
  this is the `none` branch.  sklearn returns neighbors sorted by
  increasing distance; its tie order among equal distances is not
  specified, modelled here deterministically as ascending row index.
* `difflib.get_close_matches` filters candidates through
  `real_quick_ratio`/`quick_ratio`/`ratio` against the cutoff and then
  applies `heapq.nlargest` on `(score, candidate)` pairs.  The two quick
  ratios are documented upper bounds of `ratio`, so the accepted set is
  exactly the candidates with `ratio ≥ cutoff`; only the final `ratio`
  test is modelled.  `nlargest` equals descending stable sort followed
  by `take n`; tuple comparison breaks score ties by Python string
  comparison (code-point lexicographic).
* `difflib`'s `SequenceMatcher` is modelled junk-free (the `autojunk`
  heuristic only affects inputs of length ≥ 200).  Its
  `find_longest_match` returns the longest matching block, ties broken
  by least start in the first sequence then least start in the second,
  which is what the source's scan order produces; here it is computed by
  a direct scan over all block starts with the same tie-break.
-/

/-- Python strings, as their character sequences. -/
abbrev Str := List Char

/-- Python `str.lower()`. -/
def strLower (s : Str) : Str := s.map Char.toLower

/-- One catalog row of the `movies` table: `title`, `year`, `genres`
(the columns `app.py` reads). -/
structure Movie where
  title : Str
  year : Int
  genres : List Str
deriving Repr, DecidableEq, Inhabited

/-- The fitted `sklearn` nearest-neighbor index artifact
(`models/knn_model.joblib`): the `n_neighbors` default it was built
with, and the vectors it was fitted on. -/
structure KnnModel where
  nNeighbors : Nat
  fitData : List (List ℤ)
deriving Repr, DecidableEq

/-- The Model Store handle returned by `load_models`. -/
structure Models where
  movies : List Movie
  knn : KnnModel
  tfidf : List (List ℤ)
deriving Repr, DecidableEq

/-! ## difflib: SequenceMatcher ratio and get_close_matches -/

/-- Length of the longest common prefix of two character lists. -/
def commonPrefLen : Str → Str → Nat
  | a :: as, b :: bs => if a = b then commonPrefLen as bs + 1 else 0
  | _, _ => 0

/-- Length of the longest matching run of `a` and `b` starting at
positions `i`, `j`, confined to `a[.. ahi]` and `b[.. bhi]`. -/
def runLen (a b : Str) (i j ahi bhi : Nat) : Nat :=
  commonPrefLen ((a.drop i).take (ahi - i)) ((b.drop j).take (bhi - j))

/-- The `(i, j, k)` candidates for `find_longest_match` on the window
`a[alo .. ahi] × b[blo .. bhi]`: every block start with its run
length, in the scan order of the source (outer `i`, inner `j`). -/
def flmCandidates (a b : Str) (alo ahi blo bhi : Nat) : List (Nat × Nat × Nat) :=
  (List.range' alo (ahi - alo)).flatMap fun i =>
    (List.range' blo (bhi - blo)).map fun j => (i, j, runLen a b i j ahi bhi)

/-- Keep the incumbent unless the candidate's run is strictly longer:
this reproduces `find_longest_match`'s tie-break (least `i`, then least
`j`, among maximal blocks). -/
def flmStep (best c : Nat × Nat × Nat) : Nat × Nat × Nat :=
  if best.2.2 < c.2.2 then c else best

/-- Embeds `SequenceMatcher.find_longest_match` (junk-free) on the window
`a[alo .. ahi] × b[blo .. bhi]`. -/
def findLongestMatch (a b : Str) (alo ahi blo bhi : Nat) : Nat × Nat × Nat :=
  (flmCandidates a b alo ahi blo bhi).foldl flmStep (alo, blo, 0)

/-- Total size of the matching blocks of `get_matching_blocks`
(the `M` of `ratio = 2M/T`), by the source's recursion: take the
longest match, recurse left and right of it.  `fuel` dominates the
recursion depth; `matchingSize` below supplies enough for any input. -/
def matchingSizeAux (a b : Str) : Nat → Nat → Nat → Nat → Nat → Nat
  | 0, _, _, _, _ => 0
  | fuel + 1, alo, ahi, blo, bhi =>
    let t := findLongestMatch a b alo ahi blo bhi
    if t.2.2 = 0 then 0
    else
      matchingSizeAux a b fuel alo t.1 blo t.2.1 + t.2.2 +
        matchingSizeAux a b fuel (t.1 + t.2.2) ahi (t.2.1 + t.2.2) bhi

/-- Total matched size `M` for the full sequences. -/
def matchingSize (a b : Str) : Nat :=
  matchingSizeAux a b (a.length + b.length + 1) 0 a.length 0 b.length

/-- Embeds `SequenceMatcher(None, a, b).ratio() = 2M / (len(a)+len(b))`
(and `1.0` when both are empty), as an exact rational. -/
def ratioOf (a b : Str) : ℚ :=
  if a.length + b.length = 0 then 1
  else mkRat (2 * matchingSize a b) (a.length + b.length)

/-- Python string `<`: code-point lexicographic comparison. -/
def strLtB : Str → Str → Bool
  | [], [] => false
  | [], _ :: _ => true
  | _ :: _, [] => false
  | a :: as, b :: bs => decide (a < b) || (a == b && strLtB as bs)

/-- Python string `<=`. -/
def strLeB (a b : Str) : Bool := strLtB a b || a == b

/-- Descending order on `(score, candidate)` pairs: `scoreGe p q` says
`p ≥ q` under Python's tuple comparison (score first, then string). -/
def scoreGe (p q : ℚ × Str) : Prop :=
  q.1 < p.1 ∨ (q.1 = p.1 ∧ strLeB q.2 p.2 = true)

instance : DecidableRel scoreGe := fun p q =>
  decidable_of_iff (q.1 < p.1 ∨ (q.1 = p.1 ∧ strLeB q.2 p.2 = true)) Iff.rfl

/-- Embeds `heapq.nlargest n` on `(score, candidate)` pairs: descending sort,
then the first `n`. -/
def nlargest (n : Nat) (l : List (ℚ × Str)) : List (ℚ × Str) :=
  (List.insertionSort scoreGe l).take n

/-- Embeds `difflib.get_close_matches(word, possibilities, n, cutoff)`:
keep the candidates whose ratio to `word` reaches `cutoff`, pair each
with its ratio, and return the candidates of the `n` largest pairs. -/
def get_close_matches (word : Str) (possibilities : List Str) (n : Nat) (cutoff : ℚ) :
    List Str :=
  (nlargest n
      ((possibilities.filter fun x => decide (cutoff ≤ ratioOf x word)).map
        fun x => (ratioOf x word, x))).map Prod.snd

/-! ## sklearn: kneighbors -/

/-- Squared Euclidean distance between two feature vectors. -/
def sqdist (x y : List ℤ) : ℤ := (List.zipWith (fun a b => (a - b) * (a - b)) x y).sum

/-- Neighbor order: by distance, ties by ascending row index. -/
def nbLe (p q : ℤ × Nat) : Prop := p.1 < q.1 ∨ (p.1 = q.1 ∧ p.2 ≤ q.2)

instance : DecidableRel nbLe := fun p q =>
  decidable_of_iff (p.1 < q.1 ∨ (p.1 = q.1 ∧ p.2 ≤ q.2)) Iff.rfl

/-- All fitted rows paired with their distance to the query vector,
ranked by increasing distance. -/
def knnRanked (knn : KnnModel) (q : List ℤ) : List (ℤ × Nat) :=
  List.insertionSort nbLe
    ((List.range knn.fitData.length).map fun j => (sqdist (knn.fitData.getD j []) q, j))

/-- Embeds `knn.kneighbors(q)` (no `n_neighbors` argument, a single query row):
the distances and row indices of the `knn.nNeighbors` nearest fitted
vectors, sorted by increasing distance; `none` models the `ValueError`
sklearn raises when the default neighbor count is 0 or exceeds the
number of fitted samples.  (Query-dimension validation is not modelled;
no claim exercises it.) -/
def kneighbors (knn : KnnModel) (q : List ℤ) : Option (List ℤ × List Nat) :=
  if 1 ≤ knn.nNeighbors ∧ knn.nNeighbors ≤ knn.fitData.length then
    some (((knnRanked knn q).take knn.nNeighbors).map Prod.fst,
      ((knnRanked knn q).take knn.nNeighbors).map Prod.snd)
  else none

/-! ## app.py -/

/-- Embeds `load_models` (lines 82-88): each artifact read is modelled by an
`Option` (`none` = the file is missing or malformed, where
`joblib.load` / `load_npz` raises, a fatal error).  The function bundles
the three artifacts and performs no further validation of any kind. -/
def load_models (moviesArt : Option (List Movie)) (knnArt : Option KnnModel)
    (tfidfArt : Option (List (List ℤ))) : Except Unit Models :=
  match moviesArt, knnArt, tfidfArt with
  | some m, some k, some t => Except.ok ⟨m, k, t⟩
  | _, _, _ => Except.error ()

/-- Lines 95-101: the Matcher.  Case-fold the input and the titles, run
`get_close_matches` with `n=1, cutoff=0.3`; on a match, resolve to the
first row whose case-folded title equals the matched string
(`movies[movies['title'].str.lower() == matches[0]].index[0]`, with the
catalog on its default positional index). -/
def matchMovie (movie_title : Str) (movies : List Movie) : Option Nat :=
  match get_close_matches (strLower movie_title)
      (movies.map fun m => strLower m.title) 1 (mkRat 3 10) with
  | [] => none
  | m :: _ => some ((movies.map fun mv => strLower mv.title).indexOf m)

/-- Lines 102-104, index part: query the neighbor index with row
`movie_idx`'s feature vector and slice the returned row indices
`[1:n+1]` (drop the first, keep the next `n`). -/
def recommendIdx (models : Models) (movie_idx n : Nat) : Except Unit (List Nat) :=
  match kneighbors models.knn (models.tfidf.getD movie_idx []) with
  | none => Except.error ()
  | some r => Except.ok ((r.2.drop 1).take n)

/-- Embeds `get_recommendations` (lines 90-104), instrumented with the number
of neighbor-index queries performed (second component).  Returns
`(None, None)` when the Matcher found nothing; otherwise the rows at
the sliced neighbor indices (`movies.iloc[...]`) and the resolved row.
`Except.error` models an uncaught sklearn exception. -/
def get_recommendations_traced (movie_title : Str) (models : Models) (n : Nat) :
    Except Unit (Option (List Movie) × Option Movie) × Nat :=
  match matchMovie movie_title models.movies with
  | none => (Except.ok (none, none), 0)
  | some movie_idx =>
    match recommendIdx models movie_idx n with
    | Except.error _ => (Except.error (), 1)
    | Except.ok l =>
      (Except.ok (some (l.map fun i => models.movies.getD i default),
        some (models.movies.getD movie_idx default)), 1)

/-- Embeds `get_recommendations(movie_title, models, n)`: the value the caller
sees. -/
def get_recommendations (movie_title : Str) (models : Models) (n : Nat) :
    Except Unit (Option (List Movie) × Option Movie) :=
  (get_recommendations_traced movie_title models n).1

/-- The observable outcomes of one `main` interaction (lines 155-182). -/
inductive Outcome where
  | warningEmptyInput
  | errorNotFound
  | success (header : Movie) (cards : List Movie)
  | crash
deriving Repr, DecidableEq

/-- Lines 160-180: how `main` renders one `get_recommendations` result
pair.  The success/failure branch tests only the first component
(`if recommendations is not None`); the header then uses `original`. -/
def renderResult (r : Option (List Movie) × Option Movie) : Outcome :=
  match r.1 with
  | none => Outcome.errorNotFound
  | some recs => Outcome.success (r.2.getD default) recs

/-- Embeds the per-interaction behavior of `main` (lines 155-182): empty input is
warned about before any lookup; otherwise `get_recommendations` is
called with `n = 5` and its result rendered. -/
def mainOutcome (movie_title : Str) (models : Models) : Outcome :=
  if movie_title = [] then Outcome.warningEmptyInput
  else
    match get_recommendations movie_title models 5 with
    | Except.error _ => Outcome.crash
    | Except.ok r => renderResult r

/-! ## Order facts for the two sort relations -/

theorem strLtB_trichotomy : ∀ a b : Str, strLtB a b = true ∨ a = b ∨ strLtB b a = true
  | [], [] => Or.inr (Or.inl rfl)
  | [], _ :: _ => Or.inl rfl
  | _ :: _, [] => Or.inr (Or.inr rfl)
  | a :: as, b :: bs => by
    rcases lt_trichotomy a b with h | h | h
    · exact Or.inl (by simp [strLtB, h])
    · subst h
      rcases strLtB_trichotomy as bs with h' | h' | h'
      · exact Or.inl (by simp [strLtB, h'])
      · exact Or.inr (Or.inl (by rw [h']))
      · exact Or.inr (Or.inr (by simp [strLtB, h']))
    · exact Or.inr (Or.inr (by simp [strLtB, h]))

theorem strLtB_trans : ∀ a b c : Str,
    strLtB a b = true → strLtB b c = true → strLtB a c = true
  | [], _ :: _, _ :: _, _, _ => rfl
  | [], [], _, h, _ => by simp [strLtB] at h
  | [], _ :: _, [], _, h => by simp [strLtB] at h
  | _ :: _, [], _, h, _ => by simp [strLtB] at h
  | _ :: _, _ :: _, [], _, h => by simp [strLtB] at h
  | a :: as, b :: bs, c :: cs, h1, h2 => by
    simp only [strLtB, Bool.or_eq_true, Bool.and_eq_true, decide_eq_true_eq,
      beq_iff_eq] at h1 h2 ⊢
    rcases h1 with h1 | ⟨h1e, h1r⟩
    · rcases h2 with h2 | ⟨h2e, h2r⟩
      · exact Or.inl (lt_trans h1 h2)
      · exact Or.inl (h2e ▸ h1)
    · rcases h2 with h2 | ⟨h2e, h2r⟩
      · exact Or.inl (h1e ▸ h2)
      · exact Or.inr ⟨h1e.trans h2e, strLtB_trans as bs cs h1r h2r⟩

theorem strLeB_total (a b : Str) : strLeB a b = true ∨ strLeB b a = true := by
  rcases strLtB_trichotomy a b with h | h | h
  · exact Or.inl (by simp [strLeB, h])
  · exact Or.inl (by simp [strLeB, h])
  · exact Or.inr (by simp [strLeB, h])

theorem strLeB_trans {a b c : Str} (h1 : strLeB a b = true) (h2 : strLeB b c = true) :
    strLeB a c = true := by
  simp only [strLeB, Bool.or_eq_true, beq_iff_eq] at h1 h2 ⊢
  rcases h1 with h1 | h1
  · rcases h2 with h2 | h2
    · exact Or.inl (strLtB_trans a b c h1 h2)
    · exact Or.inl (h2 ▸ h1)
  · subst h1
    exact h2

instance : IsTotal (ℚ × Str) scoreGe where
  total p q := by
    rcases lt_trichotomy p.1 q.1 with h | h | h
    · exact Or.inr (Or.inl h)
    · rcases strLeB_total p.2 q.2 with h' | h'
      · exact Or.inr (Or.inr ⟨h, h'⟩)
      · exact Or.inl (Or.inr ⟨h.symm, h'⟩)
    · exact Or.inl (Or.inl h)

instance : IsTrans (ℚ × Str) scoreGe where
  trans p q r hpq hqr := by
    rcases hpq with h1 | ⟨h1e, h1s⟩
    · rcases hqr with h2 | ⟨h2e, h2s⟩
      · exact Or.inl (lt_trans h2 h1)
      · exact Or.inl (h2e ▸ h1)
    · rcases hqr with h2 | ⟨h2e, h2s⟩
      · exact Or.inl (h1e ▸ h2)
      · exact Or.inr ⟨h2e.trans h1e, strLeB_trans h2s h1s⟩

instance : IsTotal (ℤ × Nat) nbLe where
  total p q := by
    rcases lt_trichotomy p.1 q.1 with h | h | h
    · exact Or.inl (Or.inl h)
    · rcases Nat.le_total p.2 q.2 with h' | h'
      · exact Or.inl (Or.inr ⟨h, h'⟩)
      · exact Or.inr (Or.inr ⟨h.symm, h'⟩)
    · exact Or.inr (Or.inl h)

instance : IsTrans (ℤ × Nat) nbLe where
  trans p q r hpq hqr := by
    rcases hpq with h1 | ⟨h1e, h1n⟩
    · rcases hqr with h2 | ⟨h2e, h2n⟩
      · exact Or.inl (lt_trans h1 h2)
      · exact Or.inl (h2e ▸ h1)
    · rcases hqr with h2 | ⟨h2e, h2n⟩
      · exact Or.inl (h1e ▸ h2)
      · exact Or.inr ⟨h1e.trans h2e, h1n.trans h2n⟩

theorem nbLe_fst {p q : ℤ × Nat} (h : nbLe p q) : p.1 ≤ q.1 := by
  rcases h with h | ⟨h, _⟩
  · exact le_of_lt h
  · exact le_of_eq h

/-! ## SequenceMatcher lemmas -/

theorem commonPrefLen_le_left : ∀ a b : Str, commonPrefLen a b ≤ a.length
  | [], _ => Nat.le_refl 0
  | _ :: _, [] => Nat.zero_le _
  | a :: as, b :: bs => by
    by_cases h : a = b
    · simpa [commonPrefLen, h] using commonPrefLen_le_left as bs
    · simp [commonPrefLen, h]

theorem commonPrefLen_le_right : ∀ a b : Str, commonPrefLen a b ≤ b.length
  | [], _ => Nat.zero_le _
  | _ :: _, [] => Nat.le_refl 0
  | a :: as, b :: bs => by
    by_cases h : a = b
    · simpa [commonPrefLen, h] using commonPrefLen_le_right as bs
    · simp [commonPrefLen, h]

theorem commonPrefLen_self : ∀ a : Str, commonPrefLen a a = a.length
  | [] => rfl
  | a :: as => by simp [commonPrefLen, commonPrefLen_self as]

theorem commonPrefLen_take_eq : ∀ a b : Str,
    a.take (commonPrefLen a b) = b.take (commonPrefLen a b)
  | [], b => by cases b <;> simp [commonPrefLen]
  | _ :: _, [] => by simp [commonPrefLen]
  | a :: as, b :: bs => by
    by_cases h : a = b
    · simp [commonPrefLen, h, commonPrefLen_take_eq as bs]
    · simp [commonPrefLen, h]

theorem runLen_le_left (a b : Str) (i j ahi bhi : Nat) : runLen a b i j ahi bhi ≤ ahi - i :=
  le_trans (commonPrefLen_le_left _ _) (by simp)

theorem runLen_le_right (a b : Str) (i j ahi bhi : Nat) : runLen a b i j ahi bhi ≤ bhi - j :=
  le_trans (commonPrefLen_le_right _ _) (by simp)

theorem flmCandidates_mem {a b : Str} {alo ahi blo bhi : Nat} {c : Nat × Nat × Nat}
    (h : c ∈ flmCandidates a b alo ahi blo bhi) :
    ∃ i j, c = (i, j, runLen a b i j ahi bhi) ∧
      alo ≤ i ∧ i < ahi ∧ blo ≤ j ∧ j < bhi := by
  simp only [flmCandidates, List.mem_flatMap, List.mem_map, List.mem_range'_1] at h
  obtain ⟨i, ⟨hi1, hi2⟩, j, ⟨hj1, hj2⟩, rfl⟩ := h
  exact ⟨i, j, rfl, hi1, by omega, hj1, by omega⟩

theorem foldl_flmStep_prop (P : Nat × Nat × Nat → Prop) :
    ∀ (l : List (Nat × Nat × Nat)) (init : Nat × Nat × Nat),
      P init → (∀ c ∈ l, P c) → P (l.foldl flmStep init)
  | [], _, h0, _ => h0
  | c :: cs, init, h0, hl => by
    apply foldl_flmStep_prop P cs (flmStep init c)
    · unfold flmStep
      split
      · exact hl c (List.mem_cons_self c cs)
      · exact h0
    · exact fun x hx => hl x (List.mem_cons_of_mem c hx)

theorem foldl_flmStep_const {l : List (Nat × Nat × Nat)} {init : Nat × Nat × Nat}
    (h : ∀ c ∈ l, c.2.2 ≤ init.2.2) : l.foldl flmStep init = init := by
  induction l with
  | nil => rfl
  | cons c cs ih =>
    have h1 : ¬ init.2.2 < c.2.2 := not_lt.mpr (h c (List.mem_cons_self c cs))
    simp only [List.foldl_cons, flmStep, if_neg h1]
    exact ih fun x hx => h x (List.mem_cons_of_mem c hx)

/-- The longest match is the initial sentinel or one of the scanned
block candidates. -/
theorem findLongestMatch_shape (a b : Str) (alo ahi blo bhi : Nat) :
    findLongestMatch a b alo ahi blo bhi = (alo, blo, 0) ∨
      findLongestMatch a b alo ahi blo bhi ∈ flmCandidates a b alo ahi blo bhi := by
  unfold findLongestMatch
  exact foldl_flmStep_prop
    (fun c => c = (alo, blo, 0) ∨ c ∈ flmCandidates a b alo ahi blo bhi)
    _ _ (Or.inl rfl) (fun c hc => Or.inr hc)

/-- A nonzero longest match lies inside the window. -/
theorem findLongestMatch_bounds {a b : Str} {alo ahi blo bhi : Nat}
    (h : (findLongestMatch a b alo ahi blo bhi).2.2 ≠ 0) :
    alo ≤ (findLongestMatch a b alo ahi blo bhi).1 ∧
      (findLongestMatch a b alo ahi blo bhi).1 +
        (findLongestMatch a b alo ahi blo bhi).2.2 ≤ ahi ∧
      blo ≤ (findLongestMatch a b alo ahi blo bhi).2.1 ∧
      (findLongestMatch a b alo ahi blo bhi).2.1 +
        (findLongestMatch a b alo ahi blo bhi).2.2 ≤ bhi := by
  rcases findLongestMatch_shape a b alo ahi blo bhi with hs | hs
  · rw [hs] at h
    exact absurd rfl h
  · obtain ⟨i, j, he, hi1, hi2, hj1, hj2⟩ := flmCandidates_mem hs
    rw [he]
    dsimp only
    have h1 := runLen_le_left a b i j ahi bhi
    have h2 := runLen_le_right a b i j ahi bhi
    exact ⟨hi1, by omega, hj1, by omega⟩

/-- A nonzero longest match really is a matching block of that length. -/
theorem findLongestMatch_run {a b : Str} {alo ahi blo bhi : Nat}
    (h : (findLongestMatch a b alo ahi blo bhi).2.2 ≠ 0) :
    (findLongestMatch a b alo ahi blo bhi).2.2 =
      runLen a b (findLongestMatch a b alo ahi blo bhi).1
        (findLongestMatch a b alo ahi blo bhi).2.1 ahi bhi := by
  rcases findLongestMatch_shape a b alo ahi blo bhi with hs | hs
  · rw [hs] at h
    exact absurd rfl h
  · obtain ⟨i, j, he, _, _, _, _⟩ := flmCandidates_mem hs
    rw [he]

/-- The total matched size never exceeds either window length
(the `M ≤ min` bound behind `ratio ≤ 1`). -/
theorem matchingSizeAux_le : ∀ (fuel : Nat) (a b : Str) (alo ahi blo bhi : Nat),
    matchingSizeAux a b fuel alo ahi blo bhi ≤ ahi - alo ∧
      matchingSizeAux a b fuel alo ahi blo bhi ≤ bhi - blo
  | 0, _, _, _, _, _, _ => ⟨Nat.zero_le _, Nat.zero_le _⟩
  | fuel + 1, a, b, alo, ahi, blo, bhi => by
    simp only [matchingSizeAux]
    split
    · exact ⟨Nat.zero_le _, Nat.zero_le _⟩
    · rename_i hk
      obtain ⟨hi1, hi2, hj1, hj2⟩ := findLongestMatch_bounds hk
      obtain ⟨hl1, hl2⟩ := matchingSizeAux_le fuel a b alo
        (findLongestMatch a b alo ahi blo bhi).1 blo
        (findLongestMatch a b alo ahi blo bhi).2.1
      obtain ⟨hr1, hr2⟩ := matchingSizeAux_le fuel a b
        ((findLongestMatch a b alo ahi blo bhi).1 +
          (findLongestMatch a b alo ahi blo bhi).2.2) ahi
        ((findLongestMatch a b alo ahi blo bhi).2.1 +
          (findLongestMatch a b alo ahi blo bhi).2.2) bhi
      constructor <;> omega

theorem matchingSize_le_left (a b : Str) : matchingSize a b ≤ a.length := by
  simpa using (matchingSizeAux_le (a.length + b.length + 1) a b 0 a.length 0 b.length).1

theorem matchingSize_le_right (a b : Str) : matchingSize a b ≤ b.length := by
  simpa using (matchingSizeAux_le (a.length + b.length + 1) a b 0 a.length 0 b.length).2

theorem findLongestMatch_empty_left (a b : Str) (alo blo bhi : Nat) :
    findLongestMatch a b alo alo blo bhi = (alo, blo, 0) := by
  simp [findLongestMatch, flmCandidates, Nat.sub_self]

theorem matchingSizeAux_empty_left (a b : Str) :
    ∀ (fuel : Nat) (alo blo bhi : Nat), matchingSizeAux a b fuel alo alo blo bhi = 0
  | 0, _, _, _ => rfl
  | fuel + 1, alo, blo, bhi => by
    simp [matchingSizeAux, findLongestMatch_empty_left]

theorem foldl_flmStep_ge : ∀ (l : List (Nat × Nat × Nat)) (init : Nat × Nat × Nat),
    init.2.2 ≤ (l.foldl flmStep init).2.2 ∧ ∀ c ∈ l, c.2.2 ≤ (l.foldl flmStep init).2.2
  | [], _ => ⟨Nat.le_refl _, fun _ h => absurd h (List.not_mem_nil _)⟩
  | c :: cs, init => by
    obtain ⟨h1, h2⟩ := foldl_flmStep_ge cs (flmStep init c)
    have hstep : init.2.2 ≤ (flmStep init c).2.2 ∧ c.2.2 ≤ (flmStep init c).2.2 := by
      unfold flmStep
      split <;> constructor <;> omega
    refine ⟨le_trans hstep.1 h1, fun x hx => ?_⟩
    rcases List.mem_cons.1 hx with rfl | hx
    · exact le_trans hstep.2 h1
    · exact h2 x hx

theorem runLen_self_full (a : Str) : runLen a a 0 0 a.length a.length = a.length := by
  simp [runLen, commonPrefLen_self]

/-- On two copies of the same nonempty string, the longest match is the
whole string. -/
theorem findLongestMatch_self {a : Str} (h : 1 ≤ a.length) :
    findLongestMatch a a 0 a.length 0 a.length = (0, 0, a.length) := by
  have hmem : ((0 : Nat), (0 : Nat), a.length) ∈
      flmCandidates a a 0 a.length 0 a.length := by
    simp only [flmCandidates, List.mem_flatMap, List.mem_map, List.mem_range'_1]
    exact ⟨0, ⟨Nat.le_refl 0, by omega⟩, 0, ⟨Nat.le_refl 0, by omega⟩,
      by rw [runLen_self_full]⟩
  obtain ⟨_, hall⟩ := foldl_flmStep_ge (flmCandidates a a 0 a.length 0 a.length)
    (0, 0, 0)
  have hge : a.length ≤ (findLongestMatch a a 0 a.length 0 a.length).2.2 :=
    hall _ hmem
  rcases findLongestMatch_shape a a 0 a.length 0 a.length with hs | hs
  · exfalso
    rw [hs] at hge
    have hge' : a.length ≤ 0 := hge
    omega
  · obtain ⟨i, j, he, hi1, hi2, hj1, hj2⟩ := flmCandidates_mem hs
    have hge' : a.length ≤ runLen a a i j a.length a.length := by
      rw [he] at hge
      exact hge
    have h1 := runLen_le_left a a i j a.length a.length
    have h2 := runLen_le_right a a i j a.length a.length
    have hi0 : i = 0 := by omega
    have hj0 : j = 0 := by omega
    subst hi0
    subst hj0
    rw [he, runLen_self_full]

theorem matchingSize_self (a : Str) : matchingSize a a = a.length := by
  rcases Nat.eq_zero_or_pos a.length with h | h
  · simp [matchingSize, h, matchingSizeAux_empty_left]
  · unfold matchingSize
    simp only [matchingSizeAux, findLongestMatch_self h]
    have hne : ¬ (((0 : Nat), (0 : Nat), a.length) : Nat × Nat × Nat).2.2 = 0 := by
      show ¬ a.length = 0
      omega
    rw [if_neg hne]
    show matchingSizeAux a a (a.length + a.length) 0 0 0 0 + a.length +
      matchingSizeAux a a (a.length + a.length) (0 + a.length) a.length
        (0 + a.length) a.length = a.length
    rw [Nat.zero_add, matchingSizeAux_empty_left, matchingSizeAux_empty_left]
    omega

/-- The `mkRat` form of the ratio is the exact quotient. -/
theorem ratioOf_eq_div (a b : Str) :
    ratioOf a b = if a.length + b.length = 0 then 1
      else (2 * (matchingSize a b : ℚ)) / ((a.length : ℚ) + (b.length : ℚ)) := by
  unfold ratioOf
  split
  · rfl
  · rw [Rat.mkRat_eq_div]
    push_cast
    ring_nf

/-- The `ratio` of a string with itself is `1.0`. -/
theorem ratioOf_self (a : Str) : ratioOf a a = 1 := by
  rw [ratioOf_eq_div]
  split
  · rfl
  · rename_i h
    rw [matchingSize_self]
    have hne : ((a.length : ℚ) + (a.length : ℚ)) ≠ 0 := by
      have : a.length ≠ 0 := by omega
      positivity
    field_simp
    ring

/-- The `ratio` never exceeds `1.0`. -/
theorem ratioOf_le_one (a b : Str) : ratioOf a b ≤ 1 := by
  rw [ratioOf_eq_div]
  split
  · exact le_refl 1
  · rename_i h
    have h1 := matchingSize_le_left a b
    have h2 := matchingSize_le_right a b
    have hpos : (0 : ℚ) < (a.length : ℚ) + (b.length : ℚ) := by
      have : 0 < a.length + b.length := by omega
      exact_mod_cast this
    rw [div_le_one hpos]
    have h3 : 2 * matchingSize a b ≤ a.length + b.length := by omega
    have h4 : ((2 * matchingSize a b : ℕ) : ℚ) ≤ ((a.length + b.length : ℕ) : ℚ) := by
      exact_mod_cast h3
    push_cast at h4
    linarith

theorem drop_take_split {α : Type} (l : List α) (p q r : Nat) (h1 : p ≤ q) (h2 : q ≤ r) :
    (l.drop p).take (r - p) = (l.drop p).take (q - p) ++ (l.drop q).take (r - q) := by
  have hsum : r - p = (q - p) + (r - q) := by omega
  have hdrop : (l.drop p).drop (q - p) = l.drop q := by
    rw [List.drop_drop]
    congr 1
    omega
  rw [hsum, List.take_add, hdrop]

/-- If the matched size covers the whole of both (equally long) windows,
the two windows are equal character for character. -/
theorem matchingSizeAux_full : ∀ (fuel : Nat) (a b : Str) (alo ahi blo bhi : Nat),
    matchingSizeAux a b fuel alo ahi blo bhi = ahi - alo → ahi - alo = bhi - blo →
    (a.drop alo).take (ahi - alo) = (b.drop blo).take (bhi - blo)
  | 0, a, b, alo, ahi, blo, bhi, hM, hlen => by
    simp only [matchingSizeAux] at hM
    have h1 : ahi - alo = 0 := hM.symm
    have h2 : bhi - blo = 0 := by omega
    rw [h1, h2, List.take_zero, List.take_zero]
  | fuel + 1, a, b, alo, ahi, blo, bhi, hM, hlen => by
    simp only [matchingSizeAux] at hM
    split at hM
    · have h1 : ahi - alo = 0 := hM.symm
      have h2 : bhi - blo = 0 := by omega
      rw [h1, h2, List.take_zero, List.take_zero]
    · rename_i hk
      obtain ⟨hi1, hi2, hj1, hj2⟩ := findLongestMatch_bounds hk
      have hrun := findLongestMatch_run hk
      set i := (findLongestMatch a b alo ahi blo bhi).1 with hidef
      set j := (findLongestMatch a b alo ahi blo bhi).2.1 with hjdef
      set k := (findLongestMatch a b alo ahi blo bhi).2.2 with hkdef
      obtain ⟨hLa, hLb⟩ := matchingSizeAux_le fuel a b alo i blo j
      obtain ⟨hRa, hRb⟩ := matchingSizeAux_le fuel a b (i + k) ahi (j + k) bhi
      have hLa' : matchingSizeAux a b fuel alo i blo j = i - alo := by omega
      have hLlen : i - alo = j - blo := by omega
      have hRa' : matchingSizeAux a b fuel (i + k) ahi (j + k) bhi = ahi - (i + k) := by
        omega
      have hRlen : ahi - (i + k) = bhi - (j + k) := by omega
      have hL := matchingSizeAux_full fuel a b alo i blo j hLa' hLlen
      have hR := matchingSizeAux_full fuel a b (i + k) ahi (j + k) bhi hRa' hRlen
      have hkle1 : k ≤ ahi - i := hrun ▸ runLen_le_left a b i j ahi bhi
      have hkle2 : k ≤ bhi - j := hrun ▸ runLen_le_right a b i j ahi bhi
      have hmid : (a.drop i).take k = (b.drop j).take k := by
        have hpref := commonPrefLen_take_eq ((a.drop i).take (ahi - i))
          ((b.drop j).take (bhi - j))
        rw [← runLen, ← hrun] at hpref
        rw [List.take_take, List.take_take] at hpref
        rwa [Nat.min_eq_left hkle1, Nat.min_eq_left hkle2] at hpref
      have hik : i + k - i = k := by omega
      have hjk : j + k - j = k := by omega
      rw [drop_take_split a alo i ahi hi1 (by omega),
        drop_take_split a i (i + k) ahi (by omega) hi2,
        drop_take_split b blo j bhi hj1 (by omega),
        drop_take_split b j (j + k) bhi (by omega) hj2,
        hik, hjk, hL, hmid, hR]

/-- A similarity ratio of exactly `1.0` forces the two strings to be
equal. -/
theorem ratioOf_eq_one {a b : Str} (h : ratioOf a b = 1) : a = b := by
  rw [ratioOf_eq_div] at h
  split at h
  · rename_i hT
    have ha : a = [] := List.length_eq_zero.1 (by omega)
    have hb : b = [] := List.length_eq_zero.1 (by omega)
    rw [ha, hb]
  · rename_i hT
    have hpos : ((a.length : ℚ) + (b.length : ℚ)) ≠ 0 := by
      have : 0 < a.length + b.length := by omega
      have : (0 : ℚ) < (a.length : ℚ) + (b.length : ℚ) := by exact_mod_cast this
      exact ne_of_gt this
    rw [div_eq_one_iff_eq hpos] at h
    have hM : 2 * matchingSize a b = a.length + b.length := by
      have := h
      push_cast at this
      exact_mod_cast this
    have h1 := matchingSize_le_left a b
    have h2 := matchingSize_le_right a b
    have hMa : matchingSize a b = a.length := by omega
    have hlen : a.length = b.length := by omega
    have := matchingSizeAux_full (a.length + b.length + 1) a b 0 a.length 0 b.length
      (by simpa [matchingSize] using hMa) (by omega)
    simpa using this

/-! ## get_close_matches lemmas -/

/-- Every string returned by `get_close_matches` is one of the
candidates and clears the cutoff. -/
theorem gcm_mem {word m : Str} {ps : List Str} {n : Nat} {c : ℚ}
    (h : m ∈ get_close_matches word ps n c) : m ∈ ps ∧ c ≤ ratioOf m word := by
  simp only [get_close_matches, nlargest, List.mem_map] at h
  obtain ⟨p, hp, rfl⟩ := h
  have hp2 : p ∈ List.insertionSort scoreGe
      ((ps.filter fun x => decide (c ≤ ratioOf x word)).map
        fun x => (ratioOf x word, x)) := List.mem_of_mem_take hp
  rw [List.mem_insertionSort] at hp2
  rw [List.mem_map] at hp2
  obtain ⟨x, hx, rfl⟩ := hp2
  have hx1 := List.mem_of_mem_filter hx
  have hx2 := List.of_mem_filter hx
  simp only [decide_eq_true_eq] at hx2
  exact ⟨hx1, hx2⟩

/-- If no candidate clears the cutoff, `get_close_matches` is empty. -/
theorem gcm_nil {word : Str} {ps : List Str} {n : Nat} {c : ℚ}
    (h : ∀ x ∈ ps, ratioOf x word < c) : get_close_matches word ps n c = [] := by
  have hfil : (ps.filter fun x => decide (c ≤ ratioOf x word)) = [] := by
    rw [List.filter_eq_nil_iff]
    intro x hx
    simp only [decide_eq_true_eq, not_le]
    exact h x hx
  simp [get_close_matches, nlargest, hfil]

/-- When a candidate equal to the query word is present and the cutoff
is at most `1`, `get_close_matches` (with at least one slot) puts that
word first: no other candidate's ratio can reach `1.0`. -/
theorem gcm_self {w : Str} {ps : List Str} {n : Nat} {c : ℚ}
    (hw : w ∈ ps) (hc : c ≤ 1) (hn : 1 ≤ n) :
    ∃ rest, get_close_matches w ps n c = w :: rest := by
  have hwf : w ∈ ps.filter fun x => decide (c ≤ ratioOf x w) := by
    rw [List.mem_filter]
    exact ⟨hw, by simp [ratioOf_self, hc]⟩
  have hwr : ((1 : ℚ), w) ∈
      (ps.filter fun x => decide (c ≤ ratioOf x w)).map
        fun x => (ratioOf x w, x) := by
    rw [List.mem_map]
    exact ⟨w, hwf, by rw [ratioOf_self]⟩
  have hws : ((1 : ℚ), w) ∈ List.insertionSort scoreGe
      ((ps.filter fun x => decide (c ≤ ratioOf x w)).map
        fun x => (ratioOf x w, x)) := (List.mem_insertionSort _).2 hwr
  obtain ⟨hd, tl, hsort⟩ := List.exists_cons_of_ne_nil (List.ne_nil_of_mem hws)
  have hsorted := List.sorted_insertionSort scoreGe
    ((ps.filter fun x => decide (c ≤ ratioOf x w)).map
      fun x => (ratioOf x w, x))
  rw [hsort] at hsorted hws
  have hhd : hd ∈ (ps.filter fun x => decide (c ≤ ratioOf x w)).map
      fun x => (ratioOf x w, x) := by
    have : hd ∈ List.insertionSort scoreGe
        ((ps.filter fun x => decide (c ≤ ratioOf x w)).map
          fun x => (ratioOf x w, x)) := by
      rw [hsort]
      exact List.mem_cons_self hd tl
    exact (List.mem_insertionSort _).1 this
  obtain ⟨x, hx, hxe⟩ := List.mem_map.1 hhd
  have hhd2 : hd.2 = w := by
    rcases List.mem_cons.1 hws with he | htl
    · rw [← he]
    · have hge := List.rel_of_sorted_cons hsorted _ htl
      have hle := ratioOf_le_one x w
      rcases hge with hlt | ⟨heq, _⟩
      · rw [← hxe] at hlt
        exact absurd hlt (by simp only [not_lt]; exact hle)
      · have hx1 : ratioOf x w = 1 := by
          rw [← hxe] at heq
          exact heq.symm
        have hxw : x = w := ratioOf_eq_one hx1
        rw [← hxe, hxw]
  obtain ⟨n', rfl⟩ := Nat.exists_eq_add_of_le hn
  refine ⟨(tl.take n').map Prod.snd, ?_⟩
  simp only [get_close_matches, nlargest, hsort]
  rw [Nat.add_comm 1 n']
  rw [List.take_succ_cons, List.map_cons, hhd2]

/-! ## indexOf lemmas -/

/-- Positions before `indexOf` hold different values. -/
theorem getD_ne_of_lt_indexOf {l : List Str} {a : Str} :
    ∀ {j : Nat}, j < l.indexOf a → l.getD j [] ≠ a := by
  induction l with
  | nil => intro j h; simp [List.indexOf] at h
  | cons b bs ih =>
    intro j h
    by_cases hba : b = a
    · rw [List.indexOf_cons, hba] at h
      simp at h
    · rw [List.indexOf_cons] at h
      have hb : (b == a) = false := beq_false_of_ne hba
      rw [hb] at h
      simp only [cond_false] at h
      cases j with
      | zero => simpa using hba
      | succ j' =>
        have : j' < bs.indexOf a := by omega
        simpa using ih this

/-- The `indexOf` of a present value is a valid position. -/
theorem indexOf_lt_length_of_mem {l : List Str} {a : Str} (h : a ∈ l) :
    l.indexOf a < l.length := by
  induction l with
  | nil => simp at h
  | cons b bs ih =>
    by_cases hba : b = a
    · rw [List.indexOf_cons, hba]
      simp
    · have hb : (b == a) = false := beq_false_of_ne hba
      rw [List.indexOf_cons, hb]
      have hm : a ∈ bs := by
        rcases List.mem_cons.1 h with he | hm
        · exact absurd he.symm hba
        · exact hm
      have := ih hm
      simp only [cond_false, List.length_cons]
      omega

/-- The value at position `indexOf` is the sought value. -/
theorem getD_indexOf {l : List Str} {a : Str} (h : a ∈ l) :
    l.getD (l.indexOf a) [] = a := by
  induction l with
  | nil => simp at h
  | cons b bs ih =>
    by_cases hba : b = a
    · rw [List.indexOf_cons, hba]
      simp
    · have hb : (b == a) = false := beq_false_of_ne hba
      rw [List.indexOf_cons, hb]
      have hm : a ∈ bs := by
        rcases List.mem_cons.1 h with he | hm
        · exact absurd he.symm hba
        · exact hm
      simpa using ih hm

/-- The position `indexOf` is minimal over all positions holding the value. -/
theorem indexOf_le_of_getD {l : List Str} {a : Str} {i : Nat}
    (he : l.getD i [] = a) : l.indexOf a ≤ i := by
  by_contra hlt
  exact getD_ne_of_lt_indexOf (by omega) he

/-! ## kneighbors lemmas -/

theorem sqdist_self (v : List ℤ) : sqdist v v = 0 := by
  have h : List.zipWith (fun a b => (a - b) * (a - b)) v v =
      v.map fun a => (a - a) * (a - a) := List.zipWith_same _ _
  simp [sqdist, h]

theorem sqdist_nonneg : ∀ x y : List ℤ, 0 ≤ sqdist x y
  | [], _ => by simp [sqdist]
  | _ :: _, [] => by simp [sqdist]
  | a :: as, b :: bs => by
    have h := sqdist_nonneg as bs
    simp only [sqdist, List.zipWith_cons_cons, List.sum_cons] at h ⊢
    have hsq : (0 : ℤ) ≤ (a - b) * (a - b) := mul_self_nonneg _
    linarith

theorem knnRanked_sorted (knn : KnnModel) (q : List ℤ) :
    List.Sorted nbLe (knnRanked knn q) :=
  List.sorted_insertionSort nbLe _

theorem knnRanked_perm (knn : KnnModel) (q : List ℤ) :
    List.Perm (knnRanked knn q)
      ((List.range knn.fitData.length).map fun j => (sqdist (knn.fitData.getD j []) q, j)) :=
  List.perm_insertionSort nbLe _

theorem knnRanked_mem_shape {knn : KnnModel} {q : List ℤ} {x : ℤ × Nat}
    (h : x ∈ knnRanked knn q) :
    x.1 = sqdist (knn.fitData.getD x.2 []) q ∧ x.2 < knn.fitData.length := by
  have hx := (knnRanked_perm knn q).mem_iff.1 h
  simp only [List.mem_map, List.mem_range] at hx
  obtain ⟨j, hj, rfl⟩ := hx
  exact ⟨rfl, hj⟩

theorem knnRanked_length (knn : KnnModel) (q : List ℤ) :
    (knnRanked knn q).length = knn.fitData.length := by
  rw [(knnRanked_perm knn q).length_eq, List.length_map, List.length_range]

theorem knnRanked_snd_perm (knn : KnnModel) (q : List ℤ) :
    List.Perm ((knnRanked knn q).map Prod.snd) (List.range knn.fitData.length) := by
  have h := (knnRanked_perm knn q).map Prod.snd
  rw [List.map_map] at h
  have he : (Prod.snd ∘ fun j : Nat => (sqdist (knn.fitData.getD j []) q, j)) =
      fun j : Nat => j := rfl
  rwa [he, List.map_id'] at h

theorem knnRanked_snd_nodup (knn : KnnModel) (q : List ℤ) :
    ((knnRanked knn q).map Prod.snd).Nodup :=
  (knnRanked_snd_perm knn q).symm.nodup (List.nodup_range _)

/-- When row `i` is at distance `0` from the query and every earlier
row is at positive distance, row `i` is ranked first and appears
nowhere else in the ranking. -/
theorem knnRanked_head_self {knn : KnnModel} {q : List ℤ} {i : Nat}
    (hi : i < knn.fitData.length)
    (hq : sqdist (knn.fitData.getD i []) q = 0)
    (hmin : ∀ j < i, 0 < sqdist (knn.fitData.getD j []) q) :
    ∃ t, knnRanked knn q = ((0 : ℤ), i) :: t ∧ i ∉ t.map Prod.snd := by
  have hmem : ((0 : ℤ), i) ∈ knnRanked knn q := by
    rw [(knnRanked_perm knn q).mem_iff]
    simp only [List.mem_map, List.mem_range]
    exact ⟨i, hi, by rw [hq]⟩
  obtain ⟨hd, t, hcons⟩ := List.exists_cons_of_ne_nil (List.ne_nil_of_mem hmem)
  have hsorted := knnRanked_sorted knn q
  rw [hcons] at hsorted hmem
  have hhd : hd = ((0 : ℤ), i) := by
    have hhdm : hd ∈ knnRanked knn q := by
      rw [hcons]
      exact List.mem_cons_self hd t
    obtain ⟨hd1, hd2⟩ := knnRanked_mem_shape hhdm
    rcases List.mem_cons.1 hmem with he | htl
    · exact he.symm
    · have hrel := List.rel_of_sorted_cons hsorted _ htl
      rcases hrel with hlt | ⟨heq, hle⟩
      · exfalso
        rw [hd1] at hlt
        exact absurd hlt (not_lt.2 (sqdist_nonneg _ _))
      · by_cases hji : hd.2 = i
        · have h1 : hd.1 = 0 := by rw [hd1, hji, hq]
          exact Prod.ext h1 hji
        · exfalso
          have hjlt : hd.2 < i := by
            have := hle
            dsimp only at this
            omega
          have hpos := hmin hd.2 hjlt
          rw [← hd1] at hpos
          have h0 : hd.1 = 0 := heq
          rw [h0] at hpos
          exact lt_irrefl _ hpos
  refine ⟨t, by rw [hcons, hhd], ?_⟩
  have hnodup := knnRanked_snd_nodup knn q
  rw [hcons, List.map_cons, hhd] at hnodup
  exact (List.nodup_cons.1 hnodup).1

theorem knnRanked_snd_pairwise (knn : KnnModel) (q : List ℤ) :
    ((knnRanked knn q).map Prod.snd).Pairwise
      (fun a b => sqdist (knn.fitData.getD a []) q ≤ sqdist (knn.fitData.getD b []) q) := by
  have hs : (knnRanked knn q).Pairwise nbLe := knnRanked_sorted knn q
  have h2 : (knnRanked knn q).Pairwise
      (fun p r => sqdist (knn.fitData.getD p.2 []) q ≤
        sqdist (knn.fitData.getD r.2 []) q) := by
    refine List.Pairwise.imp_of_mem ?_ hs
    intro p r hp hr hle
    have s1 := knnRanked_mem_shape hp
    have s2 := knnRanked_mem_shape hr
    rw [← s1.1, ← s2.1]
    exact nbLe_fst hle
  exact (List.pairwise_map).2 h2

/-! ## matchMovie lemmas -/

theorem matchMovie_eq_some {t : Str} {movies : List Movie} {i : Nat}
    (h : matchMovie t movies = some i) :
    ∃ m rest,
      get_close_matches (strLower t) (movies.map fun mv => strLower mv.title) 1
          (mkRat 3 10) =
        m :: rest ∧ i = (movies.map fun mv => strLower mv.title).indexOf m := by
  unfold matchMovie at h
  cases hg : get_close_matches (strLower t)
      (movies.map fun mv => strLower mv.title) 1 (mkRat 3 10) with
  | nil =>
    rw [hg] at h
    simp at h
  | cons m rest =>
    rw [hg] at h
    simp only [Option.some.injEq] at h
    exact ⟨m, rest, rfl, h.symm⟩

theorem getD_map_title {movies : List Movie} {i : Nat} (h : i < movies.length) :
    (movies.map fun mv => strLower mv.title).getD i [] =
      strLower ((movies.getD i default).title) := by
  rw [List.getD_eq_getElem _ _ (by simpa using h), List.getElem_map,
    List.getD_eq_getElem _ _ h]

/-! ## Concrete model stores used as witnesses and counterexamples -/

/-- A one-movie catalog with a consistent one-sample index. -/
def soloMovies : List Movie := [⟨"abc".data, 2000, []⟩]

def soloModels : Models := ⟨soloMovies, ⟨1, [[0]]⟩, [[0]]⟩

/-- Two catalog rows with identical feature vectors (a duplicated
movie entry): both rows are at distance `0` from each other. -/
def dupMovies : List Movie := [⟨"aa".data, 2000, []⟩, ⟨"bb".data, 2001, []⟩]

def dupModels : Models := ⟨dupMovies, ⟨2, [[0], [0]]⟩, [[0], [0]]⟩

/-- Four catalog rows with pairwise distinct feature vectors and an
index whose trained neighbor-count default is `2`. -/
def quadMovies : List Movie :=
  [⟨"aa".data, 2000, []⟩, ⟨"bb".data, 2001, []⟩,
   ⟨"cc".data, 2002, []⟩, ⟨"dd".data, 2003, []⟩]

def quadModels : Models :=
  ⟨quadMovies, ⟨2, [[0], [10], [20], [30]]⟩, [[0], [10], [20], [30]]⟩

/-- Two catalog rows whose titles differ only by case. -/
def caseMovies : List Movie := [⟨"ABC".data, 2000, []⟩, ⟨"abc".data, 2001, []⟩]

/-! ## Claim theorems -/

/-- The Matcher's cutoff, as the literal `0.3`. -/
theorem cutoff_eq : (mkRat 3 10 : ℚ) = 3 / 10 := by
  rw [Rat.mkRat_eq_div]
  norm_num

/-- C4: the Matcher resolves a catalog row only if that row's
case-folded title has similarity ratio at least `0.3` to the
case-folded input, and returns no match when no candidate clears the
`0.3` threshold. -/
theorem claim_C4 (title : Str) (movies : List Movie) :
    (∀ i, matchMovie title movies = some i →
      3 / 10 ≤ ratioOf (strLower ((movies.getD i default).title)) (strLower title)) ∧
    ((∀ mv ∈ movies, ratioOf (strLower mv.title) (strLower title) < 3 / 10) →
      matchMovie title movies = none) := by
  constructor
  · intro i h
    obtain ⟨m, rest, hg, hidx⟩ := matchMovie_eq_some h
    have hm : m ∈ get_close_matches (strLower title)
        (movies.map fun mv => strLower mv.title) 1 (mkRat 3 10) := by
      rw [hg]
      exact List.mem_cons_self m rest
    obtain ⟨hmem, hrat⟩ := gcm_mem hm
    rw [cutoff_eq] at hrat
    have hilt : i < (movies.map fun mv => strLower mv.title).length := by
      rw [hidx]
      exact indexOf_lt_length_of_mem hmem
    have hilt' : i < movies.length := by simpa using hilt
    have hget : (movies.map fun mv => strLower mv.title).getD i [] = m := by
      rw [hidx]
      exact getD_indexOf hmem
    rw [getD_map_title hilt'] at hget
    rw [hget]
    exact hrat
  · intro hall
    unfold matchMovie
    rw [gcm_nil]
    intro x hx
    obtain ⟨mv, hmv, rfl⟩ := List.mem_map.1 hx
    rw [cutoff_eq]
    exact hall mv hmv

/-- C4 witness: an exact match on a one-movie catalog clears the
threshold, and a dissimilar input produces no match. -/
theorem claim_C4_witness :
    (3 / 10 ≤ ratioOf (strLower ((soloMovies.getD 0 default).title))
      (strLower "abc".data)) ∧
    matchMovie "zzz".data soloMovies = none :=
  ⟨(claim_C4 "abc".data soloMovies).1 0 rfl,
    (claim_C4 "zzz".data soloMovies).2 (by
      rw [← cutoff_eq]
      decide)⟩

/-- C5: when the Matcher resolves row `i`, `i` is a valid position and
no earlier row's case-folded title equals row `i`'s case-folded title:
the first catalog row bearing the matched case-folded string wins. -/
theorem claim_C5 {title : Str} {movies : List Movie} {i : Nat}
    (h : matchMovie title movies = some i) :
    i < movies.length ∧
      ∀ j < i, strLower ((movies.getD j default).title) ≠
        strLower ((movies.getD i default).title) := by
  obtain ⟨m, rest, hg, hidx⟩ := matchMovie_eq_some h
  have hm : m ∈ get_close_matches (strLower title)
      (movies.map fun mv => strLower mv.title) 1 (mkRat 3 10) := by
    rw [hg]
    exact List.mem_cons_self m rest
  obtain ⟨hmem, _⟩ := gcm_mem hm
  have hilt : i < (movies.map fun mv => strLower mv.title).length := by
    rw [hidx]
    exact indexOf_lt_length_of_mem hmem
  have hilt' : i < movies.length := by simpa using hilt
  refine ⟨hilt', fun j hj hne => ?_⟩
  have hi_eq : strLower ((movies.getD i default).title) = m := by
    rw [← getD_map_title hilt', hidx]
    exact getD_indexOf hmem
  have hj_eq : (movies.map fun mv => strLower mv.title).getD j [] = m := by
    rw [getD_map_title (lt_trans hj hilt'), hne, hi_eq]
  have hjlt : j < (movies.map fun mv => strLower mv.title).indexOf m := by
    rw [← hidx]
    exact hj
  exact getD_ne_of_lt_indexOf hjlt hj_eq

/-- C5 witness: on a catalog whose two titles share a case-folded form,
exact input resolves to position 0 and the first-match property holds
there. -/
theorem claim_C5_witness :
    0 < caseMovies.length ∧
      ∀ j < 0, strLower ((caseMovies.getD j default).title) ≠
        strLower ((caseMovies.getD 0 default).title) :=
  @claim_C5 "abc".data caseMovies 0 (by decide)

/-- C6 counterexample: the input `"abc"` is exactly (including case)
the title of catalog row 1, yet the Matcher resolves row 0, whose
title `"ABC"` differs from the input — the first row with the same
case-folded title shadows the exact-case row. -/
theorem claim_C6_counterexample :
    matchMovie "abc".data caseMovies = some 0 ∧
      (caseMovies.getD 0 default).title ≠ "abc".data := by
  constructor
  · rfl
  · decide

/-- C6 (amended): for input exactly equal to a present title, the
Matcher resolves the FIRST row whose case-folded title equals the
case-folded input; the similarity ratio of that match is `1.0`, and
the resolved row is the exact row whenever no earlier row shares its
case-folded title. -/
theorem claim_C6_amended {movies : List Movie} {t : Str} {i : Nat}
    (hi : i < movies.length) (ht : (movies.getD i default).title = t) :
    ∃ j, matchMovie t movies = some j ∧ j ≤ i ∧
      strLower ((movies.getD j default).title) = strLower t ∧
      ratioOf (strLower ((movies.getD j default).title)) (strLower t) = 1 ∧
      ((∀ j' < i, strLower ((movies.getD j' default).title) ≠ strLower t) → j = i) := by
  have hgetD : (movies.map fun mv => strLower mv.title).getD i [] = strLower t := by
    rw [getD_map_title hi, ht]
  have hw : strLower t ∈ (movies.map fun mv => strLower mv.title) := by
    rw [← hgetD]
    have hlt : i < (movies.map fun mv => strLower mv.title).length := by simpa using hi
    rw [List.getD_eq_getElem _ _ hlt]
    exact List.getElem_mem hlt
  obtain ⟨rest, hg⟩ := @gcm_self (strLower t) (movies.map fun mv => strLower mv.title)
    1 (mkRat 3 10) hw (by rw [cutoff_eq]; norm_num) (le_refl 1)
  have hmm : matchMovie t movies =
      some ((movies.map fun mv => strLower mv.title).indexOf (strLower t)) := by
    unfold matchMovie
    rw [hg]
  set j := (movies.map fun mv => strLower mv.title).indexOf (strLower t) with hjdef
  have hji : j ≤ i := indexOf_le_of_getD hgetD
  have hjlt : j < movies.length := by
    have := indexOf_lt_length_of_mem hw
    rw [← hjdef] at this
    simpa using this
  have hjt : strLower ((movies.getD j default).title) = strLower t := by
    rw [← getD_map_title hjlt, hjdef]
    exact getD_indexOf hw
  refine ⟨j, hmm, hji, hjt, by rw [hjt]; exact ratioOf_self _, fun hno => ?_⟩
  rcases Nat.lt_or_ge j i with hlt | hge
  · exact absurd hjt (hno j hlt)
  · omega

/-- C6 witness: the amended claim, instantiated on the shadowed-title
catalog at the exact-case row 1. -/
theorem claim_C6_amended_witness :
    ∃ j, matchMovie "abc".data caseMovies = some j ∧ j ≤ 1 ∧
      strLower ((caseMovies.getD j default).title) = strLower "abc".data ∧
      ratioOf (strLower ((caseMovies.getD j default).title))
        (strLower "abc".data) = 1 ∧
      ((∀ j' < 1, strLower ((caseMovies.getD j' default).title) ≠
        strLower "abc".data) → j = 1) :=
  @claim_C6_amended caseMovies "abc".data 1 (by decide) (by decide)

/-- C7: determinism — two calls of `get_recommendations` with identical
input and the same loaded Model Store return identical results, and the
rendered interaction outcome is likewise identical.  The embedded code
is a pure function of the input and the Model Store: it consults no
other state and uses no randomness. -/
theorem claim_C7 (title : Str) (models : Models) (n : Nat) :
    get_recommendations title models n = get_recommendations title models n ∧
      mainOutcome title models = mainOutcome title models :=
  ⟨rfl, rfl⟩

/-- C8: on a non-empty input with no fuzzy match, the neighbor index is
never queried (the instrumented query count is `0`) and `main` surfaces
the "Movie not found" error outcome. -/
theorem claim_C8 {title : Str} {models : Models} (n : Nat)
    (hne : title ≠ []) (h : matchMovie title models.movies = none) :
    (get_recommendations_traced title models n).2 = 0 ∧
      mainOutcome title models = Outcome.errorNotFound := by
  constructor
  · unfold get_recommendations_traced
    rw [h]
  · unfold mainOutcome
    rw [if_neg hne]
    unfold get_recommendations get_recommendations_traced
    rw [h]
    rfl

/-- C8 witness: the dissimilar input `"zzz"` on the one-movie store. -/
theorem claim_C8_witness :
    (get_recommendations_traced "zzz".data soloModels 5).2 = 0 ∧
      mainOutcome "zzz".data soloModels = Outcome.errorNotFound :=
  claim_C8 5 (by decide) (by decide)

/-- C9 counterexample: `load_models` succeeds on dimensionally
inconsistent artifacts — a 1-row catalog, a 2-sample index, and a
3-row feature matrix load without any error, although the invariant
requires the three counts to be equal. -/
theorem claim_C9_counterexample :
    load_models (some soloMovies) (some ⟨1, [[0], [1]]⟩)
        (some [[0], [1], [2]]) =
      Except.ok ⟨soloMovies, ⟨1, [[0], [1]]⟩, [[0], [1], [2]]⟩ ∧
      soloMovies.length ≠ ([[0], [1], [2]] : List (List ℤ)).length := by
  constructor
  · rfl
  · decide

/-- C9 (amended): Model Store loading fails fatally exactly when an
artifact is missing or malformed (its read raises); no dimensional
consistency between catalog, matrix and index is checked at load time,
so inconsistent artifacts load successfully. -/
theorem claim_C9_amended (m : Option (List Movie)) (k : Option KnnModel)
    (t : Option (List (List ℤ))) :
    (∃ e, load_models m k t = Except.error e) ↔
      m = none ∨ k = none ∨ t = none := by
  cases m <;> cases k <;> cases t <;> simp [load_models]

/-- C10: on any input with no fuzzy match, `get_recommendations`
returns the pair `(None, None)`, and `main`'s rendering distinguishes
failure by inspecting only the first component of the pair: whenever it
is `None`, the outcome is the error outcome regardless of the second
component. -/
theorem claim_C10 {title : Str} {models : Models} (n : Nat)
    (h : matchMovie title models.movies = none) :
    get_recommendations title models n = Except.ok (none, none) ∧
      ∀ o : Option Movie, renderResult (none, o) = Outcome.errorNotFound := by
  constructor
  · unfold get_recommendations get_recommendations_traced
    rw [h]
  · intro o
    rfl

/-- C10 witness: the dissimilar input `"zzz"` on the one-movie store. -/
theorem claim_C10_witness :
    get_recommendations "zzz".data soloModels 5 = Except.ok (none, none) ∧
      ∀ o : Option Movie, renderResult (none, o) = Outcome.errorNotFound :=
  claim_C10 5 (by decide)

/-- C2 counterexample: catalog of 4 rows, index default neighbor count
2, N = 5.  The call succeeds but returns 1 row, not
`min(N, catalog_size − 1) = 3`: the code never asks the index for
`N + 1` neighbors, it takes whatever the index's default yields. -/
theorem claim_C2_counterexample :
    get_recommendations "aa".data quadModels 5 =
      Except.ok (some [⟨"bb".data, 2001, []⟩], some ⟨"aa".data, 2000, []⟩) ∧
      ([⟨"bb".data, 2001, []⟩] : List Movie).length ≠
        min 5 (quadModels.movies.length - 1) := by
  constructor
  · rfl
  · decide

/-- C1 counterexample: two catalog rows share one feature vector.
Querying `"bb"` resolves row 1, and the returned recommendation list is
exactly `[row 1]` — it contains the query row itself, because the code
drops only the first-ranked neighbor and the duplicate row 0 occupies
that slot. -/
theorem claim_C1_counterexample :
    matchMovie "bb".data dupMovies = some 1 ∧
      recommendIdx dupModels 1 5 = Except.ok [1] ∧
      get_recommendations "bb".data dupModels 5 =
        Except.ok (some [dupMovies.getD 1 default],
          some (dupMovies.getD 1 default)) := by
  refine ⟨rfl, rfl, rfl⟩


/-! ## Plumbing equations for the Recommender path -/

theorem kneighbors_eq_some {knn : KnnModel} (q : List ℤ)
    (hk1 : 1 ≤ knn.nNeighbors) (hk2 : knn.nNeighbors ≤ knn.fitData.length) :
    kneighbors knn q =
      some (((knnRanked knn q).take knn.nNeighbors).map Prod.fst,
        ((knnRanked knn q).take knn.nNeighbors).map Prod.snd) := by
  unfold kneighbors
  rw [if_pos ⟨hk1, hk2⟩]

theorem recommendIdx_eq (models : Models) (i n : Nat)
    (hk1 : 1 ≤ models.knn.nNeighbors)
    (hk2 : models.knn.nNeighbors ≤ models.knn.fitData.length) :
    recommendIdx models i n = Except.ok
      (((((knnRanked models.knn (models.tfidf.getD i [])).take
        models.knn.nNeighbors).map Prod.snd).drop 1).take n) := by
  unfold recommendIdx
  rw [kneighbors_eq_some _ hk1 hk2]

/-- Composing the pipeline on the success path. -/
theorem get_recommendations_of_some {title : Str} {models : Models} {i n : Nat}
    {l : List Nat} (hres : matchMovie title models.movies = some i)
    (hl : recommendIdx models i n = Except.ok l) :
    get_recommendations title models n =
      Except.ok (some (l.map fun ix => models.movies.getD ix default),
        some (models.movies.getD i default)) := by
  unfold get_recommendations get_recommendations_traced
  simp only [hres, hl]

/-- Decomposing the pipeline on the success path. -/
theorem get_recommendations_some_inv {title : Str} {models : Models} {n : Nat}
    {recs : List Movie} {orig : Movie}
    (h : get_recommendations title models n = Except.ok (some recs, some orig)) :
    ∃ i l, matchMovie title models.movies = some i ∧
      recommendIdx models i n = Except.ok l ∧
      recs = l.map (fun ix => models.movies.getD ix default) ∧
      orig = models.movies.getD i default := by
  unfold get_recommendations get_recommendations_traced at h
  cases hm : matchMovie title models.movies with
  | none =>
    rw [hm] at h
    simp at h
  | some i =>
    rw [hm] at h
    dsimp only at h
    cases hr : recommendIdx models i n with
    | error e =>
      rw [hr] at h
      simp at h
    | ok l =>
      rw [hr] at h
      dsimp only at h
      simp only [Except.ok.injEq, Prod.mk.injEq, Option.some.injEq] at h
      exact ⟨i, l, rfl, hr, h.1.symm, h.2.symm⟩

/-- C2 (amended): when the Matcher resolves a row and the index's
trained default neighbor count `k` satisfies `1 ≤ k ≤` fitted sample
count, the recommendation list has length `min k (N+1) − 1` — which
equals `min(N, catalog_size − 1)` only when `k = min (N+1) catalog_size`;
a default `k` above the sample count is an uncaught error, not graceful
truncation. -/
theorem claim_C2_amended {title : Str} {models : Models} {i : Nat} (n : Nat)
    (hres : matchMovie title models.movies = some i)
    (hk1 : 1 ≤ models.knn.nNeighbors)
    (hk2 : models.knn.nNeighbors ≤ models.knn.fitData.length) :
    ∃ recs orig,
      get_recommendations title models n = Except.ok (some recs, some orig) ∧
        recs.length = min models.knn.nNeighbors (n + 1) - 1 := by
  have hrec := recommendIdx_eq models i n hk1 hk2
  refine ⟨_, _, get_recommendations_of_some hres hrec, ?_⟩
  rw [List.length_map, List.length_take, List.length_drop, List.length_map,
    List.length_take, knnRanked_length]
  omega

/-- C2 witness: the amended length law on the 4-row store with default
neighbor count 2 and N = 5. -/
theorem claim_C2_amended_witness :
    ∃ recs orig,
      get_recommendations "aa".data quadModels 5 = Except.ok (some recs, some orig) ∧
        recs.length = min quadModels.knn.nNeighbors (5 + 1) - 1 :=
  claim_C2_amended 5 rfl (by decide) (by decide)

/-- C1 (amended): the recommendation list for a query resolving to row
`i` never contains `i`, provided the index was fitted on the loaded
feature matrix and no earlier row sits at distance `0` from row `i`
(e.g. no earlier duplicate feature vector); with such a duplicate the
self-row can survive the positional `[1:n+1]` slice. -/
theorem claim_C1_amended {title : Str} {models : Models} {i : Nat} (n : Nat)
    (hfit : models.knn.fitData = models.tfidf)
    (hres : matchMovie title models.movies = some i)
    (hi : i < models.tfidf.length)
    (hdup : ∀ j < i, 0 < sqdist (models.tfidf.getD j []) (models.tfidf.getD i []))
    {l : List Nat} (hl : recommendIdx models i n = Except.ok l) :
    i ∉ l ∧
      get_recommendations title models n =
        Except.ok (some (l.map fun ix => models.movies.getD ix default),
          some (models.movies.getD i default)) := by
  refine ⟨?_, get_recommendations_of_some hres hl⟩
  unfold recommendIdx at hl
  cases hk : kneighbors models.knn (models.tfidf.getD i []) with
  | none =>
    rw [hk] at hl
    simp at hl
  | some r =>
    rw [hk] at hl
    dsimp only at hl
    simp only [Except.ok.injEq] at hl
    unfold kneighbors at hk
    split at hk
    · rename_i hcond
      simp only [Option.some.injEq] at hk
      have hq0 : sqdist (models.knn.fitData.getD i []) (models.tfidf.getD i []) = 0 := by
        rw [hfit]
        exact sqdist_self _
      have hi' : i < models.knn.fitData.length := by
        rw [hfit]
        exact hi
      have hdup' : ∀ j < i,
          0 < sqdist (models.knn.fitData.getD j []) (models.tfidf.getD i []) := by
        intro j hj
        rw [hfit]
        exact hdup j hj
      obtain ⟨t, hcons, hnot⟩ := knnRanked_head_self hi' hq0 hdup'
      obtain ⟨k', hk'⟩ : ∃ k', models.knn.nNeighbors = k' + 1 :=
        ⟨models.knn.nNeighbors - 1, by omega⟩
      have hr2 : r.2 = i :: (t.take k').map Prod.snd := by
        rw [← hk]
        dsimp only
        rw [hcons, hk', List.take_succ_cons, List.map_cons]
      rw [← hl, hr2]
      intro hmem
      apply hnot
      have h1 := List.mem_of_mem_take hmem
      have h2 : i ∈ (t.take k').map Prod.snd := by simpa using h1
      rw [List.map_take] at h2
      exact List.mem_of_mem_take h2
    · simp at hk

/-- C1 witness: on the 4-row store with pairwise distinct vectors, the
query resolving to row 1 yields the recommendation indices `[0]`, which
exclude row 1. -/
theorem claim_C1_amended_witness :
    (1 : Nat) ∉ ([0] : List Nat) ∧
      get_recommendations "bb".data quadModels 5 =
        Except.ok (some (([0] : List Nat).map fun ix => quadModels.movies.getD ix default),
          some (quadModels.movies.getD 1 default)) :=
  @claim_C1_amended "bb".data quadModels 1 5 rfl rfl (by decide) (by decide)
    [0] rfl

/-- C3: whenever `get_recommendations` returns a recommendation list,
the underlying row indices are ordered by monotonically non-decreasing
(squared Euclidean) distance from the resolved query row's feature
vector, assuming the index was fitted on the loaded feature matrix. -/
theorem claim_C3 {title : Str} {models : Models} (n : Nat) {recs : List Movie}
    {orig : Movie} (hfit : models.knn.fitData = models.tfidf)
    (h : get_recommendations title models n = Except.ok (some recs, some orig)) :
    ∃ i l, matchMovie title models.movies = some i ∧
      recommendIdx models i n = Except.ok l ∧
      recs = l.map (fun ix => models.movies.getD ix default) ∧
      orig = models.movies.getD i default ∧
      l.Pairwise (fun a b =>
        sqdist (models.tfidf.getD a []) (models.tfidf.getD i []) ≤
          sqdist (models.tfidf.getD b []) (models.tfidf.getD i [])) := by
  obtain ⟨i, l, hm, hr, hrecs, horig⟩ := get_recommendations_some_inv h
  refine ⟨i, l, hm, hr, hrecs, horig, ?_⟩
  unfold recommendIdx at hr
  cases hk : kneighbors models.knn (models.tfidf.getD i []) with
  | none =>
    rw [hk] at hr
    simp at hr
  | some r =>
    rw [hk] at hr
    dsimp only at hr
    simp only [Except.ok.injEq] at hr
    unfold kneighbors at hk
    split at hk
    · simp only [Option.some.injEq] at hk
      have hr2 : r.2 = ((knnRanked models.knn (models.tfidf.getD i [])).take
          models.knn.nNeighbors).map Prod.snd := by
        rw [← hk]
      rw [← hr, hr2]
      have hp := knnRanked_snd_pairwise models.knn (models.tfidf.getD i [])
      rw [hfit] at hp
      have s1 : List.Sublist
          (((((knnRanked models.knn (models.tfidf.getD i [])).take
            models.knn.nNeighbors).map Prod.snd).drop 1).take n)
          (((knnRanked models.knn (models.tfidf.getD i [])).take
            models.knn.nNeighbors).map Prod.snd) :=
        (List.take_sublist _ _).trans (List.drop_sublist _ _)
      have s2 : List.Sublist
          (((knnRanked models.knn (models.tfidf.getD i [])).take
            models.knn.nNeighbors).map Prod.snd)
          ((knnRanked models.knn (models.tfidf.getD i [])).map Prod.snd) :=
        ((knnRanked models.knn (models.tfidf.getD i [])).take_sublist
          models.knn.nNeighbors).map Prod.snd
      exact hp.sublist (s1.trans s2)
    · simp at hk

/-- C3 witness: the sortedness law instantiated on the 4-row store. -/
theorem claim_C3_witness :
    ∃ i l, matchMovie "aa".data quadModels.movies = some i ∧
      recommendIdx quadModels i 5 = Except.ok l ∧
      ([⟨"bb".data, 2001, []⟩] : List Movie) =
        l.map (fun ix => quadModels.movies.getD ix default) ∧
      (⟨"aa".data, 2000, []⟩ : Movie) = quadModels.movies.getD i default ∧
      l.Pairwise (fun a b =>
        sqdist (quadModels.tfidf.getD a []) (quadModels.tfidf.getD i []) ≤
          sqdist (quadModels.tfidf.getD b []) (quadModels.tfidf.getD i [])) :=
  claim_C3 5 rfl rfl
